import Mathlib

/-!
Verification of the knowledge-graph and ranking core of the
AI-Powered Financial News Intelligence System.

The embedding mirrors `src/database/knowledge_graph.py`
(class `FinancialKnowledgeGraph` over a `networkx.DiGraph`) and
`src/agents/query_agent.py` (`QueryProcessingAgent._rerank_results`).

A `networkx.DiGraph` is modelled as a node list plus an edge list where
each ordered pair of endpoints occurs at most once; `add_edge` inserts
missing endpoints and overwrites the `relationship` attribute of an
existing edge, exactly as networkx does.  Exceptions raised by networkx
(`NetworkXError` from `successors` on an absent node) are modelled by an
`Option` result: `none` is the raise.
-/

set_option maxRecDepth 20000

namespace FinKG

/-- A directed edge with its optional `relationship` attribute
(networkx edge-attribute dictionaries may lack the key). -/
structure Edge where
  src : String
  tgt : String
  rel : Option String
deriving DecidableEq, Repr

/-- A `networkx.DiGraph`: nodes in insertion order, at most one edge per
ordered pair of endpoints. -/
structure Graph where
  nodes : List String
  edges : List Edge
deriving DecidableEq, Repr

def Graph.empty : Graph := ⟨[], []⟩

/-- Membership test `n in G` / `G.has_node(n)`. -/
def Graph.hasNode (g : Graph) (n : String) : Bool := g.nodes.contains n

/-- Node insertion `G.add_node(n)`: no-op when the node exists. -/
def Graph.addNode (g : Graph) (n : String) : Graph :=
  if g.hasNode n then g else { g with nodes := g.nodes ++ [n] }

/-- The stored edge record for the ordered pair `(u, v)`, if any. -/
def Graph.findEdge (g : Graph) (u v : String) : Option Edge :=
  g.edges.find? (fun e => e.src == u && e.tgt == v)

/-- Edge test `G.has_edge(u, v)`. -/
def Graph.hasEdge (g : Graph) (u v : String) : Bool := (g.findEdge u v).isSome

/-- Attribute read `G.edges[u, v].get('relationship')` (also `none` when the edge is
absent; callers below only use it on existing edges). -/
def Graph.edgeRel (g : Graph) (u v : String) : Option String :=
  match g.findEdge u v with
  | some e => e.rel
  | none => none

/-- Edge insertion `G.add_edge(u, v, relationship=rel)`: adds missing endpoints, then
overwrites the attribute of an existing `(u, v)` edge or appends a new
edge. -/
def Graph.addEdge (g : Graph) (u v : String) (rel : Option String) : Graph :=
  let g' := (g.addNode u).addNode v
  if g'.hasEdge u v then
    { g' with edges := g'.edges.map (fun e =>
        if e.src == u && e.tgt == v then { e with rel := rel } else e) }
  else
    { g' with edges := g'.edges ++ [⟨u, v, rel⟩] }

/-- Successor list `G.successors(u)` in edge-insertion order. -/
def Graph.successors (g : Graph) (u : String) : List String :=
  g.edges.filterMap (fun e => if e.src == u then some e.tgt else none)

/-- The seed graph built by `FinancialKnowledgeGraph._initialize_base_graph`,
call for call (node attributes `type` / `full_name` carry no behaviour used
by the queries and are not modelled). -/
def baseGraph : Graph :=
  let g := Graph.empty
  let g := g.addNode "RBI"
  let g := g.addNode "SEBI"
  let sectors := ["Banking", "IT", "Pharmaceuticals", "Auto", "Steel",
    "Real Estate", "FMCG", "Telecom", "Energy", "Cement"]
  let g := sectors.foldl Graph.addNode g
  let companies := [("HDFCBANK", "Banking"), ("ICICIBANK", "Banking"),
    ("AXISBANK", "Banking"), ("TCS", "IT"), ("INFY", "IT"),
    ("RELIANCE", "Energy"), ("TATAMOTORS", "Auto"), ("MARUTI", "Auto")]
  let g := companies.foldl (fun g p => (g.addNode p.1).addEdge p.1 p.2 (some "PART_OF")) g
  let g := g.addEdge "RBI" "Banking" (some "REGULATES")
  let g := g.addEdge "SEBI" "Banking" (some "OVERSEES")
  let g := g.addEdge "SEBI" "IT" (some "OVERSEES")
  let g := g.addEdge "Auto" "Steel" (some "DEPENDS_ON")
  let g := g.addEdge "Real Estate" "Cement" (some "DEPENDS_ON")
  let g := g.addEdge "Real Estate" "Steel" (some "DEPENDS_ON")
  let g := g.addEdge "RBI" "Interest Rates" (some "CONTROLS")
  let g := g.addEdge "Interest Rates" "Banking" (some "AFFECTS")
  let g := g.addEdge "Interest Rates" "Real Estate" (some "AFFECTS")
  g

/-- Method `FinancialKnowledgeGraph.add_company` (the `name` argument only feeds
the unmodelled `full_name` attribute). -/
def Graph.add_company (g : Graph) (symbol _name sector : String) : Graph :=
  let g' := g.addNode symbol
  if g'.hasNode sector then g'.addEdge symbol sector (some "PART_OF") else g'

/-- Method `FinancialKnowledgeGraph.add_relationship`. -/
def Graph.add_relationship (g : Graph) (source target relationship : String) : Graph :=
  g.addEdge source target (some relationship)

/-- A two-node directed cycle built through the public mutation API:
`add_relationship("A", "B", "LINKS")` then `add_relationship("B", "A", "LINKS")`. -/
def cycleGraph : Graph :=
  (Graph.empty.add_relationship "A" "B" "LINKS").add_relationship "B" "A" "LINKS"

/-- There is a directed path of at most `d` edges from `u` to `v`. -/
def Graph.distLe (g : Graph) : Nat → String → String → Bool
  | 0, u, v => u == v
  | d + 1, u, v => u == v || (g.successors u).any (fun w => g.distLe d w v)

/-- Directed reachability (a path, if one exists, needs at most
`g.nodes.length` edges on any graph whose edges join nodes). -/
def Graph.reachable (g : Graph) (u v : String) : Bool :=
  g.distLe g.nodes.length u v

/-- Shortest distance `nx.shortest_path_length(G, u, v)`: the least number of edges on a
directed path from `u` to `v`, `none` when unreachable. -/
def Graph.dist (g : Graph) (u v : String) : Option Nat :=
  (List.range (g.nodes.length + 1)).find? (fun d => g.distLe d u v)

/-- Forward closure `nx.descendants(G, u)`: nodes reachable from `u`, excluding `u`. -/
def Graph.descendants (g : Graph) (u : String) : List String :=
  g.nodes.filter (fun v => v != u && g.reachable u v)

/-- Backward closure `nx.ancestors(G, u)`: nodes from which `u` is reachable, excluding `u`. -/
def Graph.ancestors (g : Graph) (u : String) : List String :=
  g.nodes.filter (fun v => v != u && g.reachable v u)

/-- Python-dict write `m[k] = v`: updates the value in place when the key
exists, else appends the pair. -/
def updateAssoc (m : List (String × ℚ)) (k : String) (v : ℚ) : List (String × ℚ) :=
  if m.any (fun p => p.1 == k) then
    m.map (fun p => if p.1 == k then (k, v) else p)
  else m ++ [(k, v)]

/-- A loop body `if f key is a confidence then m[key] = it` folded over a
list of keys (the shape of both loops of `get_impacted_entities` and of
`get_supply_chain_impact`). -/
def updateFold (f : String → Option ℚ) (m : List (String × ℚ)) (L : List String) :
    List (String × ℚ) :=
  L.foldl (fun m key =>
    match f key with
    | some v => updateAssoc m key v
    | none => m) m

/-- Body of the forward loop of `get_impacted_entities`: the confidence
`1.0 / (path_length + 1)` when the shortest path from `entity` to `target`
has at most `max_depth` edges. -/
def fwdConf (g : Graph) (entity : String) (max_depth : Nat) (target : String) : Option ℚ :=
  match g.dist entity target with
  | some d => if d ≤ max_depth then some (1 / (d + 1 : ℚ)) else none
  | none => none

/-- Body of the reverse loop of `get_impacted_entities`: the confidence
`0.7 / (path_length + 1)` when the shortest path from `source` to `entity`
has at most `max_depth` edges. -/
def bwdConf (g : Graph) (entity : String) (max_depth : Nat) (source : String) : Option ℚ :=
  match g.dist source entity with
  | some d => if d ≤ max_depth then some ((7 / 10 : ℚ) / (d + 1)) else none
  | none => none

/-- Method `FinancialKnowledgeGraph.get_impacted_entities`: empty for an absent
entity; else the descendant loop fills the dict, then the ancestor loop
runs over it (overwriting shared keys, "last one wins"). -/
def Graph.get_impacted_entities (g : Graph) (entity : String) (max_depth : Nat) :
    List (String × ℚ) :=
  if g.hasNode entity then
    updateFold (bwdConf g entity max_depth)
      (updateFold (fwdConf g entity max_depth) [] (g.descendants entity))
      (g.ancestors entity)
  else []

/-- Body of the downstream loop of `get_supply_chain_impact`: `0.7` for a
node with a `DEPENDS_ON` edge into the sector. -/
def downConf (g : Graph) (sector node : String) : Option ℚ :=
  if g.hasEdge node sector then
    if g.edgeRel node sector = some "DEPENDS_ON" then some (7 / 10) else none
  else none

/-- Body of the upstream loop of `get_supply_chain_impact`: `0.6` for a
successor the sector has a `DEPENDS_ON` edge into. -/
def upConf (g : Graph) (sector node : String) : Option ℚ :=
  if g.edgeRel sector node = some "DEPENDS_ON" then some (3 / 5) else none

/-- Method `FinancialKnowledgeGraph.get_supply_chain_impact`.  The downstream
loop over `G.nodes()` runs first; `G.successors(sector)` then raises
`NetworkXError` when `sector` is absent — modelled by `none`. -/
def Graph.get_supply_chain_impact (g : Graph) (sector : String) :
    Option (List (String × ℚ)) :=
  let impacts := updateFold (downConf g sector) [] g.nodes
  if g.hasNode sector then
    some (updateFold (upConf g sector) impacts (g.successors sector))
  else none

/-- All consecutive pairs of the list are edges of `g` (a directed walk). -/
def edgeChain (g : Graph) : List String → Bool
  | u :: v :: rest => g.hasEdge u v && edgeChain g (v :: rest)
  | _ => true

/-- The rendered segments `f"{path[i]} {rel} {path[i+1]}"` of a path, with
the relationship attribute shown verbatim and `'related to'` when absent. -/
def pathSegs (g : Graph) (p : List String) : List String :=
  (p.zip p.tail).map (fun q =>
    q.1 ++ " " ++ ((g.edgeRel q.1 q.2).getD "related to") ++ " " ++ q.2)

/-- Rendering `" → ".join(explanation_parts)`. -/
def renderPath (g : Graph) (p : List String) : String :=
  String.intercalate " → " (pathSegs g p)

/-- The depth-first enumeration inside `nx.all_simple_paths`: `visited` is
the path built so far (ending in `u`), `fuel` the edges still allowed;
at each successor the visited check precedes the target check and a path
reaching the target is emitted and not extended. -/
def simplePathsAux (g : Graph) (t : String) : Nat → List String → String → List (List String)
  | 0, _, _ => []
  | fuel + 1, visited, u =>
    (g.successors u).flatMap (fun w =>
      if visited.contains w then []
      else if w == t then [visited ++ [t]]
      else simplePathsAux g t fuel (visited ++ [w]) w)

/-- Path enumeration `nx.all_simple_paths(G, s, t, cutoff)` for nodes of the graph: the
zero-length path when `s = t`, else the depth-first enumeration. -/
def Graph.all_simple_paths (g : Graph) (s t : String) (cutoff : Nat) : List (List String) :=
  if s == t then [[s]] else simplePathsAux g t cutoff [s] s

/-- Method `FinancialKnowledgeGraph.explain_relationship`: guard on membership,
paths of at most 3 hops, first 3 by discovery order, rendered. -/
def Graph.explain_relationship (g : Graph) (source target : String) : List String :=
  if !g.hasNode source || !g.hasNode target then []
  else ((g.all_simple_paths source target 3).take 3).map (renderPath g)

/-- No edge joins a node to itself. -/
def selfLoopFree (g : Graph) : Bool := g.edges.all (fun e => e.src != e.tgt)

end FinKG

namespace QueryAgent

open FinKG

/-- A candidate result of the external hybrid search, as consumed by
`QueryProcessingAgent._rerank_results`: the optional `combined_score` and
`similarity` fields and the entity list recovered from its metadata. -/
structure SearchResult where
  combined_score : Option ℚ
  similarity : Option ℚ
  entities : List String
deriving DecidableEq, Repr

/-- Semantic component `result.get('combined_score', result.get('similarity', 0))`. -/
def semanticScore (r : SearchResult) : ℚ :=
  r.combined_score.getD (r.similarity.getD 0)

/-- Overlap count `len(set(query_ent_flat) & set(all_result_entities))`: the number of
distinct query entities also among the result's entities. -/
def entityOverlap (query_ent_flat : List String) (r : SearchResult) : Nat :=
  (query_ent_flat.dedup.filter (fun e => r.entities.contains e)).length

/-- Entity-match ratio `overlap / max(len(query_ent_flat), 1)` (the denominator counts the
flattened query-entity list with duplicates). -/
def entityMatchScore (query_ent_flat : List String) (r : SearchResult) : ℚ :=
  (entityOverlap query_ent_flat r : ℚ) / (max query_ent_flat.length 1 : ℕ)

/-- The `recency` component: initialised to `0` and never updated (a
documented placeholder). -/
def recencyScore (_r : SearchResult) : ℚ := 0

/-- Weighted final score `0.5 * semantic + 0.3 * entity_match + 0.2 * recency`. -/
def finalScore (query_ent_flat : List String) (r : SearchResult) : ℚ :=
  1 / 2 * semanticScore r + 3 / 10 * entityMatchScore query_ent_flat r
    + 1 / 5 * recencyScore r

/-- Method `QueryProcessingAgent._rerank_results`: attach each result's final
score, then `results.sort(key=final_score, reverse=True)` — a stable
descending sort, modelled by `mergeSort` with the reversed comparison. -/
def rerank_results (query_ent_flat : List String) (results : List SearchResult) :
    List (SearchResult × ℚ) :=
  (results.map (fun r => (r, finalScore query_ent_flat r))).mergeSort
    (fun a b => decide (b.2 ≤ a.2))

/-- A sample search result used to instantiate the ranking theorems. -/
def sampleResult : SearchResult := ⟨some (4 / 5), none, ["RBI"]⟩

/-- Two distinct sample results with equal final scores (both lack query
entities and carry the same `combined_score`). -/
def sampleA : SearchResult := ⟨some 1, none, []⟩

/-- See `sampleA`. -/
def sampleB : SearchResult := ⟨some 1, none, ["x"]⟩

end QueryAgent

namespace FinKG

/-! ### Association-list and fold lemmas -/

theorem lookup_map_write_ne {m : List (String × ℚ)} {k k' : String} {v : ℚ}
    (h : k' ≠ k) :
    (m.map (fun p => if p.1 == k then (k, v) else p)).lookup k' = m.lookup k' := by
  induction m with
  | nil => rfl
  | cons q m ih =>
    rw [List.map_cons]
    rcases hq : (q.1 == k) with - | -
    · simp only [Bool.false_eq_true, if_false]
      simp only [List.lookup, ih]
    · simp only [if_true]
      have hqk : q.1 = k := eq_of_beq hq
      have h1 : (k' == k) = false := by simp [h]
      have h2 : (k' == q.1) = false := by simp [hqk, h]
      simp only [List.lookup, h1, h2, ih]

theorem lookup_map_write_eq {m : List (String × ℚ)} {k : String} {v : ℚ}
    (h : m.any (fun p => p.1 == k) = true) :
    (m.map (fun p => if p.1 == k then (k, v) else p)).lookup k = some v := by
  induction m with
  | nil => simp at h
  | cons q m ih =>
    rw [List.map_cons]
    rcases hq : (q.1 == k) with - | -
    · simp only [Bool.false_eq_true, if_false]
      simp only [List.any_cons, hq, Bool.false_or] at h
      have hne : ¬ q.1 = k := by simp [← beq_iff_eq (a := q.1) (b := k), hq]
      have h1 : (k == q.1) = false := by
        simp only [beq_eq_false_iff_ne, ne_eq]
        exact fun hh => hne hh.symm
      simp only [List.lookup, h1, ih h]
    · simp only [if_true, List.lookup, beq_self_eq_true]

theorem lookup_append_right {m : List (String × ℚ)} {k : String} {v : ℚ}
    (h : m.any (fun p => p.1 == k) = false) :
    (m ++ [(k, v)]).lookup k = some v := by
  induction m with
  | nil => simp [List.lookup]
  | cons q m ih =>
    simp only [List.any_cons, Bool.or_eq_false_iff] at h
    have h1 : (k == q.1) = false := by
      simp only [beq_eq_false_iff_ne, ne_eq]
      intro hh
      rw [hh] at h
      simp at h
    simp only [List.cons_append, List.lookup, h1]
    exact ih (by simp [h.2])

theorem lookup_append_ne {m : List (String × ℚ)} {k k' : String} {v : ℚ}
    (h : k' ≠ k) :
    (m ++ [(k, v)]).lookup k' = m.lookup k' := by
  induction m with
  | nil =>
    have h1 : (k' == k) = false := by simp [h]
    simp [List.lookup, h1]
  | cons q m ih =>
    rcases h2 : (k' == q.1) with - | -
    · simp only [List.cons_append, List.lookup, h2, List.append_eq, ih]
    · simp only [List.cons_append, List.lookup, h2]

/-- Python-dict write: the written key reads back the written value, other
keys are untouched. -/
theorem lookup_updateAssoc (m : List (String × ℚ)) (k k' : String) (v : ℚ) :
    (updateAssoc m k v).lookup k' = if k' = k then some v else m.lookup k' := by
  unfold updateAssoc
  rcases ha : m.any (fun p => p.1 == k) with - | -
  · rw [if_neg (by simp [ha])]
    by_cases hk : k' = k
    · subst hk; rw [lookup_append_right ha, if_pos rfl]
    · rw [lookup_append_ne hk, if_neg hk]
  · rw [if_pos (by simp [ha])]
    by_cases hk : k' = k
    · subst hk; rw [lookup_map_write_eq ha, if_pos rfl]
    · rw [lookup_map_write_ne hk, if_neg hk]

/-- The guarded-write loop: the last key occurrence with a defined value
wins, earlier state shows through otherwise. -/
theorem lookup_updateFold (f : String → Option ℚ) (L : List String)
    (m : List (String × ℚ)) (k : String) :
    (updateFold f m L).lookup k = (if k ∈ L then f k else none).or (m.lookup k) := by
  induction L generalizing m with
  | nil => simp [updateFold]
  | cons a L ih =>
    have hstep : updateFold f m (a :: L) =
        updateFold f (match f a with
          | some v => updateAssoc m a v
          | none => m) L := by
      simp [updateFold]
    rw [hstep, ih]
    by_cases hkL : k ∈ L
    · simp only [hkL, if_true, List.mem_cons, or_true]
      rcases hfk : f k with - | v
      · simp only [Option.none_or]
        rcases hfa : f a with - | w
        · rfl
        · rw [lookup_updateAssoc]
          by_cases hka : k = a
          · subst hka; rw [hfk] at hfa; exact absurd hfa (by simp)
          · simp [hka]
      · simp
    · by_cases hka : k = a
      · subst hka
        simp only [hkL, if_false, List.mem_cons, true_or, if_true, Option.none_or]
        rcases hfk : f k with - | v
        · simp
        · rw [lookup_updateAssoc]; simp
      · have : ¬ k ∈ a :: L := by simp [hka, hkL]
        simp only [hkL, if_false, this, Option.none_or]
        rcases hfa : f a with - | w
        · rfl
        · rw [lookup_updateAssoc]; simp [hka]

/-- A loop whose guard never fires leaves the dict unchanged. -/
theorem updateFold_eq_of_none {f : String → Option ℚ} {L : List String}
    (m : List (String × ℚ)) (h : ∀ x ∈ L, f x = none) :
    updateFold f m L = m := by
  induction L generalizing m with
  | nil => rfl
  | cons a L ih =>
    have ha : f a = none := h a (by simp)
    have hstep : updateFold f m (a :: L) =
        updateFold f (match f a with
          | some v => updateAssoc m a v
          | none => m) L := by
      simp [updateFold]
    rw [hstep, ha]
    exact ih _ (fun x hx => h x (by simp [hx]))

/-! ### Reachability lemmas -/

theorem distLe_succ {g : Graph} {u v : String} :
    ∀ {d : Nat}, g.distLe d u v = true → g.distLe (d + 1) u v = true := by
  intro d
  induction d generalizing u with
  | zero =>
    intro h
    simp only [Graph.distLe] at h
    simp [Graph.distLe, h]
  | succ d ih =>
    intro h
    have he1 : g.distLe (d + 1) u v =
        (u == v || (g.successors u).any fun w => g.distLe d w v) := rfl
    have he2 : g.distLe (d + 1 + 1) u v =
        (u == v || (g.successors u).any fun w => g.distLe (d + 1) w v) := rfl
    rw [he1] at h
    rw [he2]
    simp only [Bool.or_eq_true, List.any_eq_true] at h ⊢
    rcases h with h | ⟨w, hw, hd⟩
    · exact Or.inl h
    · exact Or.inr ⟨w, hw, ih hd⟩

theorem distLe_mono {g : Graph} {u v : String} {d d' : Nat}
    (hle : d ≤ d') (h : g.distLe d u v = true) : g.distLe d' u v = true := by
  induction d' with
  | zero => exact Nat.le_zero.mp hle ▸ h
  | succ d' ih =>
    rcases Nat.lt_or_ge d (d' + 1) with hlt | hge
    · exact distLe_succ (ih (Nat.lt_succ_iff.mp hlt))
    · exact Nat.le_antisymm hle hge ▸ h

theorem dist_distLe {g : Graph} {u v : String} {d : Nat}
    (h : g.dist u v = some d) : g.distLe d u v = true := by
  unfold Graph.dist at h
  exact List.find?_some (p := fun x => g.distLe x u v)
    (l := List.range (g.nodes.length + 1)) h

theorem dist_le_nodes {g : Graph} {u v : String} {d : Nat}
    (h : g.dist u v = some d) : d ≤ g.nodes.length := by
  unfold Graph.dist at h
  have := List.mem_of_find?_eq_some h
  exact Nat.lt_succ_iff.mp (List.mem_range.mp this)

theorem dist_eq_zero {g : Graph} {u v : String}
    (h : g.dist u v = some 0) : u = v := by
  have := dist_distLe h
  simpa only [Graph.distLe, beq_iff_eq] using this

theorem mem_descendants {g : Graph} {e k : String} (hk : g.hasNode k = true)
    (hne : k ≠ e) {d : Nat} (hd : g.dist e k = some d) :
    k ∈ g.descendants e := by
  unfold Graph.descendants
  rw [List.mem_filter]
  refine ⟨by simpa [Graph.hasNode] using hk, ?_⟩
  have h1 : (k != e) = true := by simp [hne]
  have h2 : g.reachable e k = true :=
    distLe_mono (dist_le_nodes hd) (dist_distLe hd)
  simp [h1, h2]

theorem mem_ancestors {g : Graph} {e k : String} (hk : g.hasNode k = true)
    (hne : k ≠ e) {d : Nat} (hd : g.dist k e = some d) :
    k ∈ g.ancestors e := by
  unfold Graph.ancestors
  rw [List.mem_filter]
  refine ⟨by simpa [Graph.hasNode] using hk, ?_⟩
  have h1 : (k != e) = true := by simp [hne]
  have h2 : g.reachable k e = true :=
    distLe_mono (dist_le_nodes hd) (dist_distLe hd)
  simp [h1, h2]

theorem ne_of_mem_descendants {g : Graph} {e k : String}
    (h : k ∈ g.descendants e) : k ≠ e := by
  unfold Graph.descendants at h
  rw [List.mem_filter] at h
  have := h.2
  simp only [Bool.and_eq_true, bne_iff_ne, ne_eq] at this
  exact this.1

theorem ne_of_mem_ancestors {g : Graph} {e k : String}
    (h : k ∈ g.ancestors e) : k ≠ e := by
  unfold Graph.ancestors at h
  rw [List.mem_filter] at h
  have := h.2
  simp only [Bool.and_eq_true, bne_iff_ne, ne_eq] at this
  exact this.1

/-! ### Lookup characterization of `get_impacted_entities` -/

/-- What a key reads back from the impact dictionary: nothing for an
absent entity; otherwise the reverse-loop value wins when defined, else
the forward-loop value. -/
theorem lookup_get_impacted (g : Graph) (e : String) (max_depth : Nat) (k : String) :
    (g.get_impacted_entities e max_depth).lookup k =
      if g.hasNode e then
        ((if k ∈ g.ancestors e then bwdConf g e max_depth k else none).or
          (if k ∈ g.descendants e then fwdConf g e max_depth k else none))
      else none := by
  unfold Graph.get_impacted_entities
  rcases hn : g.hasNode e with - | -
  · rw [if_neg (by simp), if_neg (by simp)]
    rfl
  · rw [if_pos (by simp), if_pos (by simp)]
    rw [lookup_updateFold, lookup_updateFold]
    have hempty : (List.lookup k ([] : List (String × ℚ))) = none := rfl
    rw [hempty]
    rcases hanc : (if k ∈ g.ancestors e then bwdConf g e max_depth k else none)
      with - | v
    · simp [hanc]
    · simp [hanc]

/-! ### Claim theorems for the impact and supply-chain queries -/

/-- C9: for every graph and every entity, `get_impacted_entities` with
`max_depth = 0` returns the empty mapping. -/
theorem impacted_entities_depth_zero_empty (g : Graph) (e : String) :
    g.get_impacted_entities e 0 = [] := by
  unfold Graph.get_impacted_entities
  rcases hn : g.hasNode e with - | -
  · rw [if_neg (by simp)]
  · rw [if_pos (by simp)]
    have hfwd : updateFold (fwdConf g e 0) [] (g.descendants e) = [] := by
      apply updateFold_eq_of_none
      intro k hk
      unfold fwdConf
      rcases hd : g.dist e k with - | d
      · rfl
      · rcases d with - | d
        · exact absurd (dist_eq_zero hd).symm (ne_of_mem_descendants hk)
        · simp
    rw [hfwd]
    apply updateFold_eq_of_none
    intro k hk
    unfold bwdConf
    rcases hd : g.dist k e with - | d
    · rfl
    · rcases d with - | d
      · exact absurd (dist_eq_zero hd) (ne_of_mem_ancestors hk)
      · simp

/-- C10: for an entity present in the graph and a positive depth, the
impact mapping never contains the entity itself as a key (descendant and
ancestor enumeration both exclude the start node, cycles included). -/
theorem impacted_entities_excludes_self (g : Graph) (e : String) (max_depth : Nat)
    (_he : g.hasNode e = true) (_hd : 0 < max_depth) :
    (g.get_impacted_entities e max_depth).lookup e = none := by
  rw [lookup_get_impacted]
  have h1 : ¬ e ∈ g.ancestors e := fun hmem => ne_of_mem_ancestors hmem rfl
  have h2 : ¬ e ∈ g.descendants e := fun hmem => ne_of_mem_descendants hmem rfl
  rcases hn : g.hasNode e with - | -
  · rw [if_neg (by simp)]
  · rw [if_pos (by simp), if_neg h1, if_neg h2]
    rfl

/-- Witness for C10 at the seed graph (`"RBI"` lies on no cycle, but the
theorem needs no such assumption). -/
theorem impacted_entities_excludes_self_witness :
    (baseGraph.get_impacted_entities "RBI" 1).lookup "RBI" = none :=
  impacted_entities_excludes_self baseGraph "RBI" 1 (by decide) (by decide)

/-- C2 (amended): for an id absent from the graph, `get_impacted_entities`
and `explain_relationship` (either side) return an empty result without
raising, while `get_supply_chain_impact` raises `NetworkXError` from
`G.successors` (modelled by `none`). -/
theorem unknown_entity_behaviour (g : Graph) (e other : String) (k : Nat)
    (h : g.hasNode e = false) :
    g.get_impacted_entities e k = [] ∧
    g.explain_relationship e other = [] ∧
    g.explain_relationship other e = [] ∧
    g.get_supply_chain_impact e = none := by
  refine ⟨?_, ?_, ?_, ?_⟩
  · unfold Graph.get_impacted_entities
    rw [if_neg (by simp [h])]
  · unfold Graph.explain_relationship
    rw [if_pos (by simp [h])]
  · unfold Graph.explain_relationship
    rw [if_pos (by simp [h])]
  · unfold Graph.get_supply_chain_impact
    rw [if_neg (by simp [h])]

/-- Witness for C2 (amended) at the seed graph and the unknown id `"TSLA"`. -/
theorem unknown_entity_behaviour_witness :
    baseGraph.get_impacted_entities "TSLA" 2 = [] ∧
    baseGraph.explain_relationship "TSLA" "RBI" = [] ∧
    baseGraph.explain_relationship "RBI" "TSLA" = [] ∧
    baseGraph.get_supply_chain_impact "TSLA" = none :=
  unknown_entity_behaviour baseGraph "TSLA" "RBI" 2 (by decide)

/-- C2 (counterexample): the claim "every lookup operation returns an
empty result and never raises" fails for `get_supply_chain_impact` on an
unknown id: `G.successors` raises `NetworkXError` (`none` here), so no
empty mapping is returned. -/
theorem unknown_sector_supply_chain_raises :
    baseGraph.get_supply_chain_impact "TSLA" = none ∧
    baseGraph.get_supply_chain_impact "TSLA" ≠ some [] := by
  constructor
  · decide
  · decide

/-- C1 (counterexample): on the seed graph, `getImpactedEntities("RBI", 2)`
does not include `"HDFCBANK"` at all — the only edges touching it point
from `HDFCBANK` to `Banking`, so it is reachable from `"RBI"` in neither
direction. -/
theorem rbi_impact_no_hdfcbank :
    (baseGraph.get_impacted_entities "RBI" 2).lookup "HDFCBANK" = none := by
  decide

/-- C1 (amended): on the seed graph, `getImpactedEntities("RBI", 2)`
includes `"Banking"` at distance 1 with confidence `0.5` and
`"Real Estate"` at distance 2 with confidence `1/3`; `"HDFCBANK"` does
not appear (its `PART_OF` edge points into `Banking`, not out of it). -/
theorem rbi_impact_depth_two :
    (baseGraph.get_impacted_entities "RBI" 2).lookup "Banking" = some (1 / 2) ∧
    baseGraph.dist "RBI" "Real Estate" = some 2 ∧
    (baseGraph.get_impacted_entities "RBI" 2).lookup "Real Estate" = some (1 / 3) ∧
    (baseGraph.get_impacted_entities "RBI" 2).lookup "HDFCBANK" = none := by
  refine ⟨?_, by decide, ?_, by decide⟩
  · rw [lookup_get_impacted, if_pos (by decide : baseGraph.hasNode "RBI" = true)]
    rw [if_neg (by decide : ¬ "Banking" ∈ baseGraph.ancestors "RBI")]
    rw [if_pos (by decide : "Banking" ∈ baseGraph.descendants "RBI")]
    rw [Option.none_or]
    unfold fwdConf
    rw [show baseGraph.dist "RBI" "Banking" = some 1 from by decide]
    norm_num
  · rw [lookup_get_impacted, if_pos (by decide : baseGraph.hasNode "RBI" = true)]
    rw [if_neg (by decide : ¬ "Real Estate" ∈ baseGraph.ancestors "RBI")]
    rw [if_pos (by decide : "Real Estate" ∈ baseGraph.descendants "RBI")]
    rw [Option.none_or]
    unfold fwdConf
    rw [show baseGraph.dist "RBI" "Real Estate" = some 2 from by decide]
    norm_num

theorem bwdConf_eq_near {g : Graph} {e k : String} {max_depth d : Nat}
    (hd : g.dist k e = some d) (hdep : d ≤ max_depth) :
    bwdConf g e max_depth k = some (7 / 10 / (d + 1 : ℚ)) := by
  unfold bwdConf
  rw [hd]
  exact if_pos hdep

theorem bwdConf_eq_none {g : Graph} {e k : String} {max_depth : Nat}
    (h : ∀ d, g.dist k e = some d → ¬ d ≤ max_depth) :
    bwdConf g e max_depth k = none := by
  unfold bwdConf
  rcases hd : g.dist k e with - | d
  · rfl
  · exact if_neg (h d hd)

theorem bwdConf_inv {g : Graph} {e k : String} {max_depth : Nat} {w : ℚ}
    (h : bwdConf g e max_depth k = some w) :
    ∃ d, g.dist k e = some d ∧ d ≤ max_depth ∧ w = 7 / 10 / (d + 1 : ℚ) := by
  unfold bwdConf at h
  rcases hd : g.dist k e with - | d
  · rw [hd] at h
    cases h
  · rw [hd] at h
    have h' : (if d ≤ max_depth then some (7 / 10 / (d + 1 : ℚ)) else none) = some w := h
    by_cases hdep : d ≤ max_depth
    · rw [if_pos hdep] at h'
      exact ⟨d, rfl, hdep, (Option.some.inj h').symm⟩
    · rw [if_neg hdep] at h'
      cases h'

theorem fwdConf_eq_near {g : Graph} {e k : String} {max_depth d : Nat}
    (hd : g.dist e k = some d) (hdep : d ≤ max_depth) :
    fwdConf g e max_depth k = some (1 / (d + 1 : ℚ)) := by
  unfold fwdConf
  rw [hd]
  exact if_pos hdep

theorem fwdConf_inv {g : Graph} {e k : String} {max_depth : Nat} {w : ℚ}
    (h : fwdConf g e max_depth k = some w) :
    ∃ d, g.dist e k = some d ∧ d ≤ max_depth ∧ w = 1 / (d + 1 : ℚ) := by
  unfold fwdConf at h
  rcases hd : g.dist e k with - | d
  · rw [hd] at h
    cases h
  · rw [hd] at h
    have h' : (if d ≤ max_depth then some (1 / (d + 1 : ℚ)) else none) = some w := h
    by_cases hdep : d ≤ max_depth
    · rw [if_pos hdep] at h'
      exact ⟨d, rfl, hdep, (Option.some.inj h').symm⟩
    · rw [if_neg hdep] at h'
      cases h'

/-- C3 (amended): all confidences returned by `get_impacted_entities`
lie in `(0, 1]`; a backward-reachable node at shortest distance
`d ≤ max_depth` reads back exactly `0.7/(d+1)`; a forward-reachable node
at shortest distance `d ≤ max_depth` that is not backward-reachable
within `max_depth` reads back exactly `1/(d+1)` (the reverse loop runs
second and overwrites shared keys). -/
theorem impact_confidence_bounds (g : Graph) (e : String) (max_depth : Nat) :
    (∀ k v, (g.get_impacted_entities e max_depth).lookup k = some v →
      0 < v ∧ v ≤ 1) ∧
    (∀ k d, g.hasNode e = true → g.hasNode k = true → k ≠ e →
      g.dist k e = some d → d ≤ max_depth →
      (g.get_impacted_entities e max_depth).lookup k = some (7 / 10 / (d + 1 : ℚ))) ∧
    (∀ k d, g.hasNode e = true → g.hasNode k = true → k ≠ e →
      g.dist e k = some d → d ≤ max_depth →
      (∀ d', g.dist k e = some d' → max_depth < d') →
      (g.get_impacted_entities e max_depth).lookup k = some (1 / (d + 1 : ℚ))) := by
  have hb : ∀ d : Nat, (0 : ℚ) < (d : ℚ) + 1 := by
    intro d
    positivity
  have hcast : ∀ d : Nat, (0 : ℚ) ≤ (d : ℚ) := fun d => Nat.cast_nonneg d
  refine ⟨?_, ?_, ?_⟩
  · intro k v h
    rw [lookup_get_impacted] at h
    rcases hn : g.hasNode e with - | -
    · rw [if_neg (by simp [hn])] at h
      cases h
    · rw [if_pos (by simp [hn])] at h
      have hval : (∃ d : Nat, v = 7 / 10 / (d + 1 : ℚ)) ∨
          (∃ d : Nat, v = 1 / (d + 1 : ℚ)) := by
        rcases hbw : (if k ∈ g.ancestors e then bwdConf g e max_depth k else none)
          with - | w
        · rw [hbw, Option.none_or] at h
          by_cases hm : k ∈ g.descendants e
          · rw [if_pos hm] at h
            obtain ⟨d, -, -, hw⟩ := fwdConf_inv h
            exact Or.inr ⟨d, hw⟩
          · rw [if_neg hm] at h
            cases h
        · rw [hbw, Option.or_some] at h
          have hw : bwdConf g e max_depth k = some w := by
            by_cases hm : k ∈ g.ancestors e
            · rwa [if_pos hm] at hbw
            · rw [if_neg hm] at hbw
              cases hbw
          obtain ⟨d, -, -, hwv⟩ := bwdConf_inv hw
          exact Or.inl ⟨d, (Option.some.inj h).symm.trans hwv⟩
      rcases hval with ⟨d, rfl⟩ | ⟨d, rfl⟩
      · constructor
        · positivity
        · rw [div_le_one (hb d)]
          have := hcast d
          linarith
      · constructor
        · positivity
        · rw [div_le_one (hb d)]
          have := hcast d
          linarith
  · intro k d he hk hne hdist hdep
    rw [lookup_get_impacted, if_pos (by simp [he])]
    rw [if_pos (mem_ancestors hk hne hdist), bwdConf_eq_near hdist hdep,
      Option.or_some]
  · intro k d he hk hne hdist hdep hnb
    rw [lookup_get_impacted, if_pos (by simp [he])]
    have hbwd : bwdConf g e max_depth k = none :=
      bwdConf_eq_none (fun d' hd' => Nat.not_le_of_lt (hnb d' hd'))
    have hleft : (if k ∈ g.ancestors e then bwdConf g e max_depth k else none) = none := by
      by_cases hm : k ∈ g.ancestors e
      · rw [if_pos hm, hbwd]
      · rw [if_neg hm]
    rw [hleft, Option.none_or, if_pos (mem_descendants hk hne hdist),
      fwdConf_eq_near hdist hdep]

/-- Witness for C3 (amended): `HDFCBANK` is backward-reachable from
`Banking` at distance 1 (confidence `0.7/2`), `Real Estate` is
forward-reachable only from `RBI` at distance 2 (confidence `1/3`), and
the first value lies in `(0, 1]`. -/
theorem impact_confidence_bounds_witness :
    (baseGraph.get_impacted_entities "Banking" 2).lookup "HDFCBANK" =
      some (7 / 10 / ((1 : Nat) + 1 : ℚ)) ∧
    (0 < 7 / 10 / ((1 : Nat) + 1 : ℚ) ∧ 7 / 10 / ((1 : Nat) + 1 : ℚ) ≤ 1) ∧
    (baseGraph.get_impacted_entities "RBI" 2).lookup "Real Estate" =
      some (1 / ((2 : Nat) + 1 : ℚ)) := by
  have h2 := (impact_confidence_bounds baseGraph "Banking" 2).2.1 "HDFCBANK" 1
    (by decide) (by decide) (by decide) (by decide) (by decide)
  have h3 := (impact_confidence_bounds baseGraph "RBI" 2).2.2 "Real Estate" 2
    (by decide) (by decide) (by decide) (by decide) (by decide)
    (by
      intro d' hd'
      rw [show baseGraph.dist "Real Estate" "RBI" = none from by decide] at hd'
      cases hd')
  exact ⟨h2, (impact_confidence_bounds baseGraph "Banking" 2).1 "HDFCBANK" _ h2, h3⟩

/-- C3 (counterexample): on a two-node cycle, `"B"` is forward-reachable
from `"A"` at shortest distance 1 but reads back `0.7/2`, not `1/2` —
the reverse loop overwrites the forward value, so "every
forward-reachable node at distance `d` maps to exactly `1/(d+1)`" fails. -/
theorem impact_confidence_overwrite_counterexample :
    cycleGraph.dist "A" "B" = some 1 ∧
    (cycleGraph.get_impacted_entities "A" 1).lookup "B" =
      some (7 / 10 / ((1 : Nat) + 1 : ℚ)) ∧
    (7 / 10 / ((1 : Nat) + 1 : ℚ)) ≠ 1 / ((1 : Nat) + 1 : ℚ) := by
  refine ⟨by decide, ?_, by norm_num⟩
  rw [lookup_get_impacted, if_pos (by decide : cycleGraph.hasNode "A" = true)]
  rw [if_pos (by decide : "B" ∈ cycleGraph.ancestors "A")]
  rw [bwdConf_eq_near (show cycleGraph.dist "B" "A" = some 1 from by decide)
    (by norm_num), Option.or_some]

theorem downConf_inv {g : Graph} {sector k : String} {w : ℚ}
    (h : downConf g sector k = some w) :
    w = 7 / 10 ∧ g.edgeRel k sector = some "DEPENDS_ON" := by
  unfold downConf at h
  by_cases h1 : g.hasEdge k sector = true
  · rw [if_pos h1] at h
    by_cases h2 : g.edgeRel k sector = some "DEPENDS_ON"
    · rw [if_pos h2] at h
      exact ⟨(Option.some.inj h).symm, h2⟩
    · rw [if_neg h2] at h
      cases h
  · rw [if_neg h1] at h
    cases h

theorem upConf_inv {g : Graph} {sector k : String} {w : ℚ}
    (h : upConf g sector k = some w) :
    w = 3 / 5 ∧ g.edgeRel sector k = some "DEPENDS_ON" := by
  unfold upConf at h
  by_cases h2 : g.edgeRel sector k = some "DEPENDS_ON"
  · rw [if_pos h2] at h
    exact ⟨(Option.some.inj h).symm, h2⟩
  · rw [if_neg h2] at h
    cases h

/-- C7: for a sector present in the graph, every confidence in the
mapping returned by `get_supply_chain_impact` is exactly `0.7` — for a
node with a `DEPENDS_ON` edge into the sector — or exactly `0.6` — for a
node the sector has a `DEPENDS_ON` edge into — and never any other
value. -/
theorem supply_chain_confidence (g : Graph) (sector : String)
    (m : List (String × ℚ)) (k : String) (v : ℚ)
    (hm : g.get_supply_chain_impact sector = some m)
    (hk : m.lookup k = some v) :
    (v = 7 / 10 ∧ g.edgeRel k sector = some "DEPENDS_ON") ∨
    (v = 3 / 5 ∧ g.edgeRel sector k = some "DEPENDS_ON") := by
  by_cases hn : g.hasNode sector = true
  · have hm' : (if g.hasNode sector then
        some (updateFold (upConf g sector)
          (updateFold (downConf g sector) [] g.nodes) (g.successors sector))
        else none) = some m := hm
    rw [if_pos hn] at hm'
    have hmm := (Option.some.inj hm').symm
    subst hmm
    rw [lookup_updateFold, lookup_updateFold] at hk
    have hnil : (List.lookup k ([] : List (String × ℚ))) = none := rfl
    rw [hnil, Option.or_none] at hk
    rcases hup : (if k ∈ g.successors sector then upConf g sector k else none)
      with - | w
    · rw [hup, Option.none_or] at hk
      by_cases hmem : k ∈ g.nodes
      · rw [if_pos hmem] at hk
        exact Or.inl (downConf_inv hk)
      · rw [if_neg hmem] at hk
        cases hk
    · rw [hup, Option.or_some] at hk
      have hw : upConf g sector k = some w := by
        by_cases hmem : k ∈ g.successors sector
        · rwa [if_pos hmem] at hup
        · rw [if_neg hmem] at hup
          cases hup
      obtain ⟨hw35, hrel⟩ := upConf_inv hw
      exact Or.inr ⟨(Option.some.inj hk).symm.trans hw35, hrel⟩
  · have hm' : (if g.hasNode sector then
        some (updateFold (upConf g sector)
          (updateFold (downConf g sector) [] g.nodes) (g.successors sector))
        else none) = some m := hm
    rw [if_neg hn] at hm'
    cases hm'

/-- Witness for C7: on the seed graph, `get_supply_chain_impact("Steel")`
maps `"Auto"` to `0.7` via its `DEPENDS_ON` edge into `Steel`. -/
theorem supply_chain_confidence_witness :
    ((7 : ℚ) / 10 = 7 / 10 ∧ baseGraph.edgeRel "Auto" "Steel" = some "DEPENDS_ON") ∨
    ((7 : ℚ) / 10 = 3 / 5 ∧ baseGraph.edgeRel "Steel" "Auto" = some "DEPENDS_ON") :=
  supply_chain_confidence baseGraph "Steel"
    (updateFold (upConf baseGraph "Steel")
      (updateFold (downConf baseGraph "Steel") [] baseGraph.nodes)
      (baseGraph.successors "Steel"))
    "Auto" (7 / 10) rfl rfl

/-! ### Self-loop lemmas for the mutation API -/

theorem addNode_edges (g : Graph) (n : String) : (g.addNode n).edges = g.edges := by
  unfold Graph.addNode
  split
  · rfl
  · rfl

theorem selfLoopFree_addNode (g : Graph) (n : String) :
    selfLoopFree (g.addNode n) = selfLoopFree g := by
  unfold selfLoopFree
  rw [addNode_edges]

theorem addEdge_endpoints {g : Graph} {s t : String} {rel : Option String} :
    ∀ e ∈ (g.addEdge s t rel).edges,
      (e.src = s ∧ e.tgt = t) ∨ ∃ e' ∈ g.edges, e.src = e'.src ∧ e.tgt = e'.tgt := by
  intro e he
  unfold Graph.addEdge at he
  have hE : ((g.addNode s).addNode t).edges = g.edges := by
    rw [addNode_edges, addNode_edges]
  by_cases hc : ((g.addNode s).addNode t).hasEdge s t = true
  · rw [if_pos hc] at he
    simp only [hE] at he
    obtain ⟨e', he', hmap⟩ := List.mem_map.mp he
    by_cases hcond : (e'.src == s && e'.tgt == t) = true
    · rw [if_pos hcond] at hmap
      exact Or.inr ⟨e', he', by rw [← hmap], by rw [← hmap]⟩
    · rw [if_neg hcond] at hmap
      exact Or.inr ⟨e', he', by rw [← hmap], by rw [← hmap]⟩
  · rw [if_neg hc] at he
    simp only [hE] at he
    rcases List.mem_append.mp he with hmem | hmem
    · exact Or.inr ⟨e, hmem, rfl, rfl⟩
    · have : e = ⟨s, t, rel⟩ := by simpa using hmem
      subst this
      exact Or.inl ⟨rfl, rfl⟩

theorem selfLoopFree_addEdge {g : Graph} {s t : String} {rel : Option String}
    (h : selfLoopFree g = true) (hst : s ≠ t) :
    selfLoopFree (g.addEdge s t rel) = true := by
  unfold selfLoopFree at h ⊢
  rw [List.all_eq_true] at h ⊢
  intro e he
  rcases addEdge_endpoints e he with ⟨hs, ht⟩ | ⟨e', he', hs, ht⟩
  · simp [hs, ht, hst]
  · have := h e' he'
    simp only [bne_iff_ne, ne_eq] at this ⊢
    rw [hs, ht]
    exact this

/-- C4 (amended): the seed graph has no self-loops, and `add_company` /
`add_relationship` preserve freedom from self-loops provided the new
edge's endpoints differ (`symbol ≠ sector`, `source ≠ target`); a call
with equal endpoints does introduce a self-loop (see the counterexample). -/
theorem no_self_loops_preserved :
    selfLoopFree baseGraph = true ∧
    (∀ (g : Graph) (symbol nm sector : String), selfLoopFree g = true →
      symbol ≠ sector → selfLoopFree (g.add_company symbol nm sector) = true) ∧
    (∀ (g : Graph) (s t r : String), selfLoopFree g = true →
      s ≠ t → selfLoopFree (g.add_relationship s t r) = true) := by
  refine ⟨by decide, ?_, ?_⟩
  · intro g symbol nm sector h hne
    unfold Graph.add_company
    by_cases hc : (g.addNode symbol).hasNode sector = true
    · rw [if_pos hc]
      exact selfLoopFree_addEdge (by rw [selfLoopFree_addNode]; exact h) hne
    · rw [if_neg hc]
      rw [selfLoopFree_addNode]
      exact h
  · intro g s t r h hne
    unfold Graph.add_relationship
    exact selfLoopFree_addEdge h hne

/-- Witness for C4 (amended): adding `RBI →[TEST] TCS` keeps the seed
graph self-loop free. -/
theorem no_self_loops_preserved_witness :
    selfLoopFree (baseGraph.add_relationship "RBI" "TCS" "TEST") = true :=
  no_self_loops_preserved.2.2 baseGraph "RBI" "TCS" "TEST"
    no_self_loops_preserved.1 (by decide)

/-- C4 (counterexample): `add_relationship` performs no endpoint check, so
`add_relationship("Banking", "Banking", "SELF")` stores a self-loop —
the invariant "no node has an edge to itself" is not preserved by every
call sequence. -/
theorem self_loop_counterexample :
    selfLoopFree (baseGraph.add_relationship "Banking" "Banking" "SELF") = false ∧
    (baseGraph.add_relationship "Banking" "Banking" "SELF").hasEdge
      "Banking" "Banking" = true := by
  constructor
  · decide
  · decide

/-! ### Simple-path enumeration lemmas for the explainer -/

theorem mem_successors_hasEdge {g : Graph} {u w : String}
    (h : w ∈ g.successors u) : g.hasEdge u w = true := by
  unfold Graph.successors at h
  obtain ⟨e, he, hew⟩ := List.mem_filterMap.mp h
  by_cases hsrc : (e.src == u) = true
  · rw [if_pos hsrc] at hew
    have htgt : e.tgt = w := Option.some.inj hew
    unfold Graph.hasEdge Graph.findEdge
    rw [Option.isSome_iff_exists]
    have hfind : (g.edges.find? (fun e =>
        e.src == u && e.tgt == w)).isSome = true := by
      rw [List.find?_isSome]
      exact ⟨e, he, by simp [eq_of_beq hsrc, htgt]⟩
    rwa [← Option.isSome_iff_exists]
  · rw [if_neg hsrc] at hew
    cases hew

theorem edgeChain_concat {g : Graph} :
    ∀ {visited : List String} {u w : String}, visited.getLast? = some u →
      edgeChain g visited = true → g.hasEdge u w = true →
      edgeChain g (visited ++ [w]) = true := by
  intro visited
  induction visited with
  | nil =>
    intro u w hlast
    cases hlast
  | cons x xs ih =>
    intro u w hlast hchain hedge
    cases xs with
    | nil =>
      have hxu : x = u := by simpa using hlast
      subst hxu
      show (g.hasEdge x w && edgeChain g [w]) = true
      simp [hedge, edgeChain]
    | cons y ys =>
      have hchain' : (g.hasEdge x y && edgeChain g (y :: ys)) = true := hchain
      rw [Bool.and_eq_true] at hchain'
      have hlast' : (y :: ys).getLast? = some u := by
        rw [← hlast]
        simp [List.getLast?_cons_cons]
      have := ih hlast' hchain'.2 hedge
      show (g.hasEdge x y && edgeChain g ((y :: ys) ++ [w])) = true
      rw [Bool.and_eq_true]
      exact ⟨hchain'.1, this⟩

/-- Soundness of the depth-first enumeration: everything it emits extends
the visited prefix to a duplicate-free edge walk ending at the target,
within the remaining fuel. -/
theorem simplePathsAux_sound (g : Graph) (t : String) :
    ∀ (fuel : Nat) (visited : List String) (u : String) (p : List String),
      p ∈ simplePathsAux g t fuel visited u →
      visited.getLast? = some u → edgeChain g visited = true →
      visited.Nodup → ¬ t ∈ visited →
      p.head? = visited.head? ∧ p.getLast? = some t ∧ edgeChain g p = true ∧
      p.Nodup ∧ p.length ≤ visited.length + fuel := by
  intro fuel
  induction fuel with
  | zero =>
    intro visited u p hp
    simp [simplePathsAux] at hp
  | succ fuel ih =>
    intro visited u p hp hlast hchain hnodup htvis
    have hp' : p ∈ (g.successors u).flatMap (fun w =>
        if visited.contains w then []
        else if w == t then [visited ++ [t]]
        else simplePathsAux g t fuel (visited ++ [w]) w) := hp
    rw [List.mem_flatMap] at hp'
    obtain ⟨w, hw, hbr⟩ := hp'
    have hvisne : visited ≠ [] := by
      intro hnil
      rw [hnil] at hlast
      cases hlast
    by_cases hvis : visited.contains w = true
    · rw [if_pos hvis] at hbr
      cases hbr
    · rw [if_neg hvis] at hbr
      have hwvis : ¬ w ∈ visited := by simpa using hvis
      by_cases hwt : (w == t) = true
      · rw [if_pos hwt] at hbr
        have hpw : p = visited ++ [t] := by simpa using hbr
        subst hpw
        have hwt' : w = t := eq_of_beq hwt
        refine ⟨?_, List.getLast?_concat _, ?_, ?_, ?_⟩
        · rw [List.head?_append]
          cases visited with
          | nil => exact absurd rfl hvisne
          | cons x xs => rfl
        · exact edgeChain_concat hlast hchain (hwt' ▸ mem_successors_hasEdge hw)
        · rw [List.nodup_append]
          refine ⟨hnodup, List.nodup_singleton _, ?_⟩
          intro a ha hat
          have : a = t := by simpa using hat
          subst this
          exact htvis ha
        · rw [List.length_append]
          simp
      · rw [if_neg hwt] at hbr
        have hwt' : w ≠ t := by
          intro hh
          rw [hh] at hwt
          simp at hwt
        have hnodup' : (visited ++ [w]).Nodup := by
          rw [List.nodup_append]
          refine ⟨hnodup, List.nodup_singleton _, ?_⟩
          intro a ha haw
          have : a = w := by simpa using haw
          subst this
          exact hwvis ha
        have htvis' : ¬ t ∈ visited ++ [w] := by
          rw [List.mem_append]
          rintro (h | h)
          · exact htvis h
          · have : t = w := by simpa using h
            exact hwt' this.symm
        obtain ⟨h1, h2, h3, h4, h5⟩ := ih (visited ++ [w]) w p hbr
          (List.getLast?_concat _)
          (edgeChain_concat hlast hchain (mem_successors_hasEdge hw))
          hnodup' htvis'
        refine ⟨?_, h2, h3, h4, ?_⟩
        · rw [h1, List.head?_append]
          cases visited with
          | nil => exact absurd rfl hvisne
          | cons x xs => rfl
        · rw [List.length_append] at h5
          simp only [List.length_cons, List.length_nil] at h5
          omega

/-- Everything `all_simple_paths` emits with cutoff 3 is a duplicate-free
edge walk from `s` to `t` of at most 3 hops (at most 4 nodes). -/
theorem mem_all_simple_paths_spec {g : Graph} {s t : String} {p : List String}
    (hp : p ∈ g.all_simple_paths s t 3) :
    p.head? = some s ∧ p.getLast? = some t ∧ p.Nodup ∧
    edgeChain g p = true ∧ p.length ≤ 4 := by
  unfold Graph.all_simple_paths at hp
  by_cases hst : (s == t) = true
  · rw [if_pos hst] at hp
    have : p = [s] := by simpa using hp
    subst this
    have hst' : s = t := eq_of_beq hst
    exact ⟨rfl, by simp [hst'], List.nodup_singleton _, rfl, by simp⟩
  · rw [if_neg hst] at hp
    have hts : ¬ t ∈ [s] := by
      intro hh
      have : t = s := by simpa using hh
      rw [this] at hst
      simp at hst
    obtain ⟨h1, h2, h3, h4, h5⟩ := simplePathsAux_sound g t 3 [s] s p hp
      rfl rfl (List.nodup_singleton _) hts
    exact ⟨h1, h2, h4, h3, by simpa using h5⟩

/-- C6: for nodes present in the graph, `explain_relationship` returns at
most 3 descriptions, each the rendering of a simple directed path of at
most 3 hops from source to target (relationship labels verbatim,
`"related to"` when absent, segments joined by `" → "` — all inside
`renderPath`), and returns the empty sequence when no such path exists. -/
theorem explain_relationship_spec (g : Graph) (s t : String)
    (hs : g.hasNode s = true) (ht : g.hasNode t = true) :
    (g.explain_relationship s t).length ≤ 3 ∧
    (∀ desc ∈ g.explain_relationship s t, ∃ p : List String,
      p.head? = some s ∧ p.getLast? = some t ∧ p.Nodup ∧
      edgeChain g p = true ∧ p.length ≤ 4 ∧ desc = renderPath g p) ∧
    ((∀ p : List String, p.head? = some s → p.getLast? = some t → p.Nodup →
        edgeChain g p = true → p.length ≤ 4 → False) →
      g.explain_relationship s t = []) := by
  have hexp : g.explain_relationship s t =
      ((g.all_simple_paths s t 3).take 3).map (renderPath g) := by
    unfold Graph.explain_relationship
    rw [if_neg (by simp [hs, ht])]
  refine ⟨?_, ?_, ?_⟩
  · rw [hexp, List.length_map]
    exact List.length_take_le _ _
  · intro desc hdesc
    rw [hexp] at hdesc
    obtain ⟨p, hpt, rfl⟩ := List.mem_map.mp hdesc
    obtain ⟨h1, h2, h3, h4, h5⟩ := mem_all_simple_paths_spec (List.mem_of_mem_take hpt)
    exact ⟨p, h1, h2, h3, h4, h5, rfl⟩
  · intro hno
    rw [hexp]
    suffices hnil : g.all_simple_paths s t 3 = [] by
      rw [hnil]
      rfl
    by_contra hne
    obtain ⟨p, hp⟩ := List.exists_mem_of_ne_nil _ hne
    obtain ⟨h1, h2, h3, h4, h5⟩ := mem_all_simple_paths_spec hp
    exact hno p h1 h2 h3 h4 h5

/-- Witness for C6: on the seed graph, `"RBI REGULATES Banking"` is one
of the returned descriptions and is the rendering of a simple path. -/
theorem explain_relationship_spec_witness :
    ∃ p : List String,
      p.head? = some "RBI" ∧ p.getLast? = some "Banking" ∧ p.Nodup ∧
      edgeChain baseGraph p = true ∧ p.length ≤ 4 ∧
      "RBI REGULATES Banking" = renderPath baseGraph p :=
  (explain_relationship_spec baseGraph "RBI" "Banking"
    (by decide) (by decide)).2.1 "RBI REGULATES Banking" (by decide)

end FinKG

namespace QueryAgent

open FinKG

/-! ### Claim theorems for the hybrid ranker -/

/-- C5: every entry of the reranked list carries the final score
`0.5 * similarity + 0.3 * entityMatch + 0.2 * recency` where
`entityMatch = |queryEntities ∩ resultEntities| / max(|queryEntities|, 1)`
and the recency component is always `0`. -/
theorem rerank_score_formula (q : List String) (rs : List SearchResult)
    (p : SearchResult × ℚ) (hp : p ∈ rerank_results q rs) :
    p.2 = 1 / 2 * semanticScore p.1
      + 3 / 10 * ((entityOverlap q p.1 : ℚ) / (max q.length 1 : ℕ))
      + 1 / 5 * 0 := by
  unfold rerank_results at hp
  rw [List.mem_mergeSort] at hp
  obtain ⟨r, -, rfl⟩ := List.mem_map.mp hp
  rfl

/-- Witness for C5 at a single concrete result. -/
theorem rerank_score_formula_witness :
    (sampleResult, finalScore ["RBI"] sampleResult).2 =
      1 / 2 * semanticScore sampleResult
      + 3 / 10 * ((entityOverlap ["RBI"] sampleResult : ℚ)
          / (max (List.length ["RBI"]) 1 : ℕ))
      + 1 / 5 * 0 :=
  rerank_score_formula ["RBI"] [sampleResult]
    (sampleResult, finalScore ["RBI"] sampleResult)
    (by
      unfold rerank_results
      rw [List.mem_mergeSort]
      simp)

/-- C8: the ranker's sort is stable — two entries with equal final scores
keep their input order (`list.sort` in Python is stable; the embedding's
`mergeSort` with the reversed comparison is likewise). -/
theorem rerank_stable (q : List String) (rs : List SearchResult)
    (a b : SearchResult × ℚ) (hab : a.2 = b.2)
    (hsub : [a, b].Sublist (rs.map (fun r => (r, finalScore q r)))) :
    [a, b].Sublist (rerank_results q rs) := by
  unfold rerank_results
  apply List.pair_sublist_mergeSort
  · intro x y z hxy hyz
    simp only [decide_eq_true_eq] at hxy hyz ⊢
    exact le_trans hyz hxy
  · intro x y
    simp only [Bool.or_eq_true, decide_eq_true_eq]
    exact le_total y.2 x.2
  · simp only [decide_eq_true_eq]
    exact le_of_eq hab.symm
  · exact hsub

/-- Witness for C8: two distinct results with equal final scores stay in
input order after reranking. -/
theorem rerank_stable_witness :
    [(sampleA, finalScore [] sampleA), (sampleB, finalScore [] sampleB)].Sublist
      (rerank_results [] [sampleA, sampleB]) :=
  rerank_stable [] [sampleA, sampleB]
    (sampleA, finalScore [] sampleA) (sampleB, finalScore [] sampleB)
    rfl (List.Sublist.refl _)

end QueryAgent

